import Mathlib

/-!
Verification of the conversation-log subsystem of `gptme/logmanager.py`.

The Python source is shallowly embedded below:

* `Message` models the external message dataclass at the fields this file
  consumes (`role`, `content`, `timestamp`, `files`, `quiet`); equality is
  structural, as for a frozen dataclass.
* `Log` models the frozen `Log` dataclass wrapping a message list, with
  `append` (list concatenation with a singleton) and `pop` (slice `[:-1]`,
  i.e. `dropLast`, a no-op on the empty log).
* `LogManager` models the in-memory registry state: `current_branch` and the
  insertion-ordered branch map `_branches` (a Python `dict`, embedded as an
  association list with first-match lookup and replace-in-place/append-at-end
  assignment, matching `dict` semantics on its unique-key states).
* `FS` models the storage directory: the `conversation.jsonl` main file and
  the `branches/*.jsonl` files.
* Python `str.startswith` is embedded as `strStartsWith` over the character
  data of the string.

Printing (`rich.print`, `print_msg`) never changes registry state; where a
claim mentions reported text, the printed events are modelled by `OutEvent`
values returned alongside the state.  `write()` only touches the file system,
never `_branches`, so the registry-level operations are stated without the
file system and `LogManager.writeFS` carries the file-system effect.
-/

set_option autoImplicit false

namespace Gptme

/-- Modelled from the spec: `Message` is an external type (`message.py` is not
part of the embedded source); per §3 it carries `role`, `content`, a
`timestamp` point in time (embedded as a natural number), `files` (paths,
embedded as strings) and the auxiliary `quiet` flag, with structural value
equality. -/
structure Message where
  role : String
  content : String
  timestamp : Nat
  files : List String
  quiet : Bool
deriving DecidableEq, Repr

/-- `Log` from `logmanager.py`: a frozen dataclass holding `messages`. -/
structure Log where
  messages : List Message
deriving DecidableEq, Repr

/-- `Log.append`: `replace(messages=self.messages + [msg])`. -/
def Log.append (l : Log) (msg : Message) : Log :=
  Log.mk (l.messages ++ [msg])

/-- `Log.pop`: `replace(messages=self.messages[:-1])` (drop the last element;
Python's `[:-1]` of an empty list is the empty list). -/
def Log.pop (l : Log) : Log :=
  Log.mk l.messages.dropLast

/-- Python `list.startswith` on character lists: `listIsPre p s` is true iff
`p` is an initial segment of `s`. -/
def listIsPre : List Char → List Char → Bool
  | [], _ => true
  | _ :: _, [] => false
  | p :: ps, c :: cs => p = c && listIsPre ps cs

/-- Python `str.startswith`: `strStartsWith s p` models `s.startswith(p)`. -/
def strStartsWith (s p : String) : Bool :=
  listIsPre p.data s.data

/-- First-match lookup in an association list, i.e. `d[k]` on a Python dict
with unique keys (`none` models a missing key). -/
def dictGet? {α : Type} : List (String × α) → String → Option α
  | [], _ => none
  | (k', v') :: rest, k => if k' = k then some v' else dictGet? rest k

/-- Python dict assignment `d[k] = v`: replaces the value in place if the key
is present (keeping its position), otherwise appends the new pair at the end,
matching `dict` insertion-order semantics. -/
def dictSet {α : Type} : List (String × α) → String → α → List (String × α)
  | [], k, v => [(k, v)]
  | (k', v') :: rest, k, v =>
    if k' = k then (k, v) :: rest else (k', v') :: dictSet rest k v

/-- In-memory state of `LogManager`: the active branch name and the
insertion-ordered branch map `_branches`. -/
structure LogManager where
  current_branch : String
  branches : List (String × Log)
deriving DecidableEq, Repr

/-- The `log` property: `self._branches[self.current_branch]` (the default is
never reached on states where the current branch is present, which every
theorem below assumes or preserves). -/
def currentLog (m : LogManager) : Log :=
  (dictGet? m.branches m.current_branch).getD (Log.mk [])

/-- The `log` setter: `self._branches[self.current_branch] = value`. -/
def setLog (m : LogManager) (l : Log) : LogManager :=
  { m with branches := dictSet m.branches m.current_branch l }

/- ----------------------------------------------------------------- -/
/- Association-list (Python dict) lemmas.                            -/
/- ----------------------------------------------------------------- -/

theorem dictGet?_dictSet_self {α : Type} (d : List (String × α)) (k : String) (v : α) :
    dictGet? (dictSet d k v) k = some v := by
  induction d with
  | nil => simp [dictSet, dictGet?]
  | cons p rest ih =>
    obtain ⟨k', v'⟩ := p
    by_cases h : k' = k <;> simp [dictSet, dictGet?, h, ih]

theorem dictGet?_dictSet_ne {α : Type} (d : List (String × α)) (k k' : String) (v : α)
    (h : k' ≠ k) : dictGet? (dictSet d k v) k' = dictGet? d k' := by
  induction d with
  | nil => simp [dictSet, dictGet?, Ne.symm h]
  | cons p rest ih =>
    obtain ⟨k₀, v₀⟩ := p
    by_cases h0 : k₀ = k
    · subst h0
      simp [dictSet, dictGet?, Ne.symm h]
    · by_cases h1 : k₀ = k' <;> simp [dictSet, dictGet?, h0, h1, ih, h]

theorem dictSet_of_mem {α : Type} (d : List (String × α)) (k : String) (v : α)
    (h : dictGet? d k = some v) : dictSet d k v = d := by
  induction d with
  | nil => simp [dictGet?] at h
  | cons p rest ih =>
    obtain ⟨k₀, v₀⟩ := p
    by_cases h0 : k₀ = k
    · subst h0
      simp [dictGet?] at h
      simp [dictSet, h]
    · simp [dictGet?, h0] at h
      simp [dictSet, h0, ih h]

theorem dictSet_dictSet {α : Type} (d : List (String × α)) (k : String) (v₁ v₂ : α) :
    dictSet (dictSet d k v₁) k v₂ = dictSet d k v₂ := by
  induction d with
  | nil => simp [dictSet]
  | cons p rest ih =>
    obtain ⟨k₀, v₀⟩ := p
    by_cases h0 : k₀ = k <;> simp [dictSet, h0, ih]

theorem dictSet_of_fresh {α : Type} (d : List (String × α)) (k : String) (v : α)
    (h : dictGet? d k = none) : dictSet d k v = d ++ [(k, v)] := by
  induction d with
  | nil => simp [dictSet]
  | cons p rest ih =>
    obtain ⟨k₀, v₀⟩ := p
    by_cases h0 : k₀ = k
    · simp [dictGet?, h0] at h
    · simp [dictGet?, h0] at h
      simp [dictSet, h0, ih h]

theorem dictGet?_append_ne {α : Type} (d : List (String × α)) (k k' : String) (v : α)
    (h : k' ≠ k) : dictGet? (d ++ [(k, v)]) k' = dictGet? d k' := by
  induction d with
  | nil => simp [dictGet?, Ne.symm h]
  | cons p rest ih =>
    obtain ⟨k₀, v₀⟩ := p
    by_cases h0 : k₀ = k' <;> simp [dictGet?, h0, ih]

theorem dictGet?_append_self {α : Type} (d : List (String × α)) (k : String) (v : α)
    (h : dictGet? d k = none) : dictGet? (d ++ [(k, v)]) k = some v := by
  induction d with
  | nil => simp [dictGet?]
  | cons p rest ih =>
    obtain ⟨k₀, v₀⟩ := p
    by_cases h0 : k₀ = k
    · simp [dictGet?, h0] at h
    · simp [dictGet?, h0] at h ⊢
      exact ih h

theorem length_dictSet_of_mem {α : Type} (d : List (String × α)) (k : String) (v : α)
    (h : (dictGet? d k).isSome) : (dictSet d k v).length = d.length := by
  induction d with
  | nil => simp [dictGet?] at h
  | cons p rest ih =>
    obtain ⟨k₀, v₀⟩ := p
    by_cases h0 : k₀ = k
    · simp [dictSet, h0]
    · simp [dictGet?, h0] at h
      simp [dictSet, h0, ih h]

theorem dictGet?_some_mem {α : Type} (d : List (String × α)) (k : String) (v : α)
    (h : dictGet? d k = some v) : (k, v) ∈ d := by
  induction d with
  | nil => simp [dictGet?] at h
  | cons p rest ih =>
    obtain ⟨k₀, v₀⟩ := p
    by_cases h0 : k₀ = k
    · subst h0
      simp [dictGet?] at h
      simp [h]
    · simp [dictGet?, h0] at h
      simp [ih h]

/- ----------------------------------------------------------------- -/
/- String helpers.                                                   -/
/- ----------------------------------------------------------------- -/

theorem listIsPre_head {p : Char} {ps l : List Char}
    (h : listIsPre (p :: ps) l = true) : listIsPre [p] l = true := by
  cases l with
  | nil => simp [listIsPre] at h
  | cons c cs =>
    simp [listIsPre] at h ⊢
    exact h.1

theorem startsWith_undo_slash {s : String} (h : strStartsWith s "/undo" = true) :
    strStartsWith s "/" = true := by
  have hd : "/undo".data = '/' :: "undo".data := rfl
  have hd1 : "/".data = ['/'] := rfl
  unfold strStartsWith at h ⊢
  rw [hd] at h
  rw [hd1]
  exact listIsPre_head h

theorem ne_append_of_data_ne_nil (s t : String) (h : t.data ≠ []) : s ≠ s ++ t := by
  intro heq
  have hlen : s.data.length = (s ++ t).data.length := by rw [← heq]
  rw [String.data_append, List.length_append] at hlen
  have : t.data.length = 0 := by omega
  exact h (List.length_eq_zero.mp this)

/- ----------------------------------------------------------------- -/
/- Backup branches (`_save_backup_branch`) and `edit`.               -/
/- ----------------------------------------------------------------- -/

/-- `len([b for b in self._branches.keys() if b.startswith(branch_prefix)])`. -/
def countPre (d : List (String × Log)) (p : String) : Nat :=
  (d.filter (fun b => strStartsWith b.1 p)).length

/-- `branch_prefix = f"{self.current_branch}-{type}-"`. -/
def bpreOf (m : LogManager) (ty : String) : String :=
  m.current_branch ++ "-" ++ ty ++ "-"

/-- The key `f"{branch_prefix}{n}"` with `n = countPre`. -/
def backupName (m : LogManager) (ty : String) : String :=
  bpreOf m ty ++ Nat.repr (countPre m.branches (bpreOf m ty))

/-- `LogManager._save_backup_branch`: store the current log under the fresh
backup key.  The trailing `self.write()` only touches the file system. -/
def saveBackup (m : LogManager) (ty : String) : LogManager :=
  { m with branches := dictSet m.branches (backupName m ty) (currentLog m) }

/-- `LogManager.edit`: back up the current content under an `edit` branch,
then replace the active branch's log (the `write()` calls only touch disk). -/
def LogManager.edit (m : LogManager) (newLog : Log) : LogManager :=
  setLog (saveBackup m "edit") newLog

theorem saveBackup_current (m : LogManager) (ty : String) :
    (saveBackup m ty).current_branch = m.current_branch := rfl

theorem setLog_current (m : LogManager) (l : Log) :
    (setLog m l).current_branch = m.current_branch := rfl

theorem current_ne_backupName (m : LogManager) (ty : String) :
    m.current_branch ≠ backupName m ty := by
  unfold backupName bpreOf
  rw [String.append_assoc, String.append_assoc, String.append_assoc]
  apply ne_append_of_data_ne_nil
  rw [String.data_append]
  simp

theorem countPre_zero_not_mem (d : List (String × Log)) (p k : String)
    (hc : countPre d p = 0) (hk : strStartsWith k p = true) :
    dictGet? d k = none := by
  cases h : dictGet? d k with
  | none => rfl
  | some v =>
    exfalso
    have hmem := dictGet?_some_mem d k v h
    have hfil : (d.filter (fun b => strStartsWith b.1 p)).length = 0 := hc
    rw [List.length_eq_zero, List.filter_eq_nil_iff] at hfil
    exact absurd hk (by simpa using hfil _ hmem)

theorem countPre_append (d : List (String × Log)) (p k : String) (v : Log) :
    countPre (d ++ [(k, v)]) p =
      countPre d p + (if strStartsWith k p then 1 else 0) := by
  unfold countPre
  rw [List.filter_append, List.length_append]
  by_cases h : strStartsWith k p <;> simp [h]

theorem countPre_dictSet_of_mem (d : List (String × Log)) (p k : String) (v : Log)
    (h : (dictGet? d k).isSome) : countPre (dictSet d k v) p = countPre d p := by
  induction d with
  | nil => simp [dictGet?] at h
  | cons q rest ih =>
    obtain ⟨k₀, v₀⟩ := q
    by_cases h0 : k₀ = k
    · subst h0
      simp [dictSet, countPre, List.filter]
      by_cases hs : strStartsWith k₀ p <;> simp [hs]
    · simp [dictGet?, h0] at h
      have := ih h
      simp [dictSet, h0, countPre, List.filter] at this ⊢
      by_cases hs : strStartsWith k₀ p <;> simp [hs, this]

/- ----------------------------------------------------------------- -/
/- C4: `edit` backs up the old content, then installs the new log.   -/
/- ----------------------------------------------------------------- -/

/-- C4: for every registry state whose active branch holds log `L` and every
new log, `edit(newLog)` leaves a backup branch of type `edit` (named by
`backupName`) holding exactly the pre-call content `L`, sets the active
branch's log to `newLog`, and keeps the active branch pointer unchanged. -/
theorem edit_spec (m : LogManager) (L newLog : Log)
    (h : dictGet? m.branches m.current_branch = some L) :
    dictGet? (m.edit newLog).branches (backupName m "edit") = some L ∧
    dictGet? (m.edit newLog).branches m.current_branch = some newLog ∧
    (m.edit newLog).current_branch = m.current_branch := by
  have hcur : currentLog m = L := by simp [currentLog, h]
  have hne : backupName m "edit" ≠ m.current_branch :=
    Ne.symm (current_ne_backupName m "edit")
  refine ⟨?_, ?_, rfl⟩
  · show dictGet? (dictSet (dictSet m.branches (backupName m "edit") (currentLog m))
      m.current_branch newLog) (backupName m "edit") = some L
    rw [dictGet?_dictSet_ne _ _ _ _ hne, dictGet?_dictSet_self, hcur]
  · exact dictGet?_dictSet_self _ _ _

/- ----------------------------------------------------------------- -/
/- C3: backup-branch naming.                                         -/
/- ----------------------------------------------------------------- -/

/-- C3: every backup branch is stored under the key
`{current-branch}-{type}-{n}` with `n` the number of branches whose names
start with that prefix at the moment of creation (first conjunct, for every
state and operation type); in particular, starting from a state on branch
`"main"` with no `main-edit-*` branches, two consecutive `edit` calls create
`main-edit-0` and then `main-edit-1`, the second edit seeing exactly one
matching branch, and the first backup is not overwritten (no index reuse). -/
theorem backup_naming (m : LogManager) (ty : String) (d : List (String × Log))
    (L0 L1 L2 : Log) (h0 : dictGet? d "main" = some L0)
    (hc : countPre d "main-edit-" = 0) :
    dictGet? (saveBackup m ty).branches (backupName m ty) = some (currentLog m) ∧
    backupName (LogManager.mk "main" d) "edit" = "main-edit-0" ∧
    dictGet? ((LogManager.mk "main" d).edit L1).branches "main-edit-0" = some L0 ∧
    countPre ((LogManager.mk "main" d).edit L1).branches "main-edit-" = 1 ∧
    backupName ((LogManager.mk "main" d).edit L1) "edit" = "main-edit-1" ∧
    dictGet? (((LogManager.mk "main" d).edit L1).edit L2).branches "main-edit-1" =
      some L1 ∧
    dictGet? (((LogManager.mk "main" d).edit L1).edit L2).branches "main-edit-0" =
      some L0 := by
  have hpre : bpreOf (LogManager.mk "main" d) "edit" = "main-edit-" := rfl
  have hsw0 : strStartsWith "main-edit-0" "main-edit-" = true := by decide
  have hsw1 : strStartsWith "main-edit-1" "main-edit-" = true := by decide
  have hb0 : backupName (LogManager.mk "main" d) "edit" = "main-edit-0" := by
    unfold backupName
    rw [hpre, hc]
    rfl
  have hfresh0 : dictGet? d "main-edit-0" = none :=
    countPre_zero_not_mem d "main-edit-" "main-edit-0" hc hsw0
  have hlog0 : currentLog (LogManager.mk "main" d) = L0 := by
    simp [currentLog, h0]
  -- the branch map after the first edit
  have hbr1 : ((LogManager.mk "main" d).edit L1).branches =
      dictSet (d ++ [("main-edit-0", L0)]) "main" L1 := by
    show dictSet (dictSet d (backupName (LogManager.mk "main" d) "edit")
        (currentLog (LogManager.mk "main" d))) "main" L1 = _
    rw [hb0, hlog0, dictSet_of_fresh d _ _ hfresh0]
  have hget0ap : dictGet? (d ++ [("main-edit-0", L0)]) "main-edit-0" = some L0 :=
    dictGet?_append_self d _ _ hfresh0
  have hmainap : dictGet? (d ++ [("main-edit-0", L0)]) "main" = some L0 := by
    rw [dictGet?_append_ne d _ _ _ (by decide)]
    exact h0
  have hget0 : dictGet? ((LogManager.mk "main" d).edit L1).branches "main-edit-0" =
      some L0 := by
    rw [hbr1, dictGet?_dictSet_ne _ _ _ _ (by decide)]
    exact hget0ap
  have hcnt1 : countPre ((LogManager.mk "main" d).edit L1).branches "main-edit-" = 1 := by
    rw [hbr1, countPre_dictSet_of_mem _ _ _ _ (by rw [hmainap]; rfl),
      countPre_append, hc, hsw0]
    simp
  have hcur1 : ((LogManager.mk "main" d).edit L1).current_branch = "main" := rfl
  have hpre1 : bpreOf ((LogManager.mk "main" d).edit L1) "edit" = "main-edit-" := rfl
  have hb1 : backupName ((LogManager.mk "main" d).edit L1) "edit" = "main-edit-1" := by
    unfold backupName
    rw [hpre1, hcnt1]
    rfl
  have hlog1 : currentLog ((LogManager.mk "main" d).edit L1) = L1 := by
    unfold currentLog
    rw [hcur1]
    show (dictGet? (dictSet _ "main" L1) "main").getD _ = L1
    rw [dictGet?_dictSet_self]
    rfl
  have hbr2 : (((LogManager.mk "main" d).edit L1).edit L2).branches =
      dictSet (dictSet ((LogManager.mk "main" d).edit L1).branches
        "main-edit-1" L1) "main" L2 := by
    show dictSet (dictSet _ (backupName ((LogManager.mk "main" d).edit L1) "edit")
        (currentLog ((LogManager.mk "main" d).edit L1)))
      (saveBackup ((LogManager.mk "main" d).edit L1) "edit").current_branch L2 = _
    rw [hb1, hlog1, saveBackup_current, hcur1]
  refine ⟨?_, hb0, hget0, hcnt1, hb1, ?_, ?_⟩
  · show dictGet? (dictSet m.branches (backupName m ty) (currentLog m))
      (backupName m ty) = some (currentLog m)
    exact dictGet?_dictSet_self _ _ _
  · rw [hbr2, dictGet?_dictSet_ne _ _ _ _ (by decide), dictGet?_dictSet_self]
  · rw [hbr2, dictGet?_dictSet_ne _ _ _ _ (by decide),
      dictGet?_dictSet_ne _ _ _ _ (by decide), hbr1,
      dictGet?_dictSet_ne _ _ _ _ (by decide)]
    exact hget0ap

/- ----------------------------------------------------------------- -/
/- `diff`: the divergence computer.                                  -/
/- ----------------------------------------------------------------- -/

/-- `itertools.zip_longest` on two message lists, with `None` (here `none`)
filling the missing positions of the shorter list. -/
def zipLongest : List Message → List Message → List (Option Message × Option Message)
  | [], bs => bs.map (fun b => (none, some b))
  | a :: as, [] => (some a, none) :: zipLongest as []
  | a :: as, b :: bs => (some a, some b) :: zipLongest as bs

theorem zipLongest_nil_cons (b : Message) (bs : List Message) :
    zipLongest [] (b :: bs) = (none, some b) :: zipLongest [] bs := by
  simp [zipLongest]

/-- The `for i, (msg1, msg2) in enumerate(...)` loop of `LogManager.diff`:
starting at index `i`, return the index of the first pair whose components
differ (`break`), or `none` when the loop completes (the `for`/`else` arm). -/
def findDiffFrom : Nat → List (Option Message × Option Message) → Option Nat
  | _, [] => none
  | i, (m1, m2) :: rest => if m1 = m2 then findDiffFrom (i + 1) rest else some i

/-- `LogManager.diff`, parameterised by the external `Message.format`
renderer (from `message.py`, outside the embedded source): an unknown branch
gives `None` (with a logged warning); otherwise the first differing index of
the lockstep walk is found, the continuing messages of the current branch are
prefixed `+ ` and those of the other branch `- `, and an empty report is
defensively turned into `None`. -/
def LogManager.diff (fmt : Message → String) (m : LogManager) (branch : String) :
    Option String :=
  match dictGet? m.branches branch with
  | none => none
  | some other =>
    match findDiffFrom 0 (zipLongest (currentLog m).messages other.messages) with
    | none => none
    | some d =>
      let lines := ((currentLog m).messages.drop d).map (fun msg => "+ " ++ fmt msg)
        ++ (other.messages.drop d).map (fun msg => "- " ++ fmt msg)
      if lines.isEmpty then none else some (String.intercalate "\n" lines)

/-- Specification-side notion of the divergence index: the lockstep walk
(with absent positions read as `none`) disagrees at `d` and agrees at every
earlier index. -/
def firstDivergence (A B : List Message) (d : Nat) : Prop :=
  A[d]? ≠ B[d]? ∧ ∀ j < d, A[j]? = B[j]?

instance (A B : List Message) (d : Nat) : Decidable (firstDivergence A B d) := by
  unfold firstDivergence
  infer_instance

theorem findDiffFrom_shift (l : List (Option Message × Option Message)) (i : Nat) :
    findDiffFrom i l = (findDiffFrom 0 l).map (fun x => i + x) := by
  induction l generalizing i with
  | nil => rfl
  | cons p rest ih =>
    obtain ⟨m1, m2⟩ := p
    by_cases h : m1 = m2
    · rw [findDiffFrom, if_pos h, findDiffFrom, if_pos h, ih (i + 1), ih 1]
      cases findDiffFrom 0 rest with
      | none => rfl
      | some x =>
        simp only [Option.map_some']
        congr 1
        omega
    · simp [findDiffFrom, h]

theorem findDiffFrom_zipLongest_none (A B : List Message) :
    findDiffFrom 0 (zipLongest A B) = none ↔ A = B := by
  induction A generalizing B with
  | nil =>
    cases B with
    | nil => simp [zipLongest, findDiffFrom]
    | cons b bs => simp [zipLongest, findDiffFrom]
  | cons a as ih =>
    cases B with
    | nil => simp [zipLongest, findDiffFrom]
    | cons b bs =>
      by_cases h : a = b
      · subst h
        simp [zipLongest, findDiffFrom, findDiffFrom_shift _ 1, ih]
      · simp [zipLongest, findDiffFrom, h]

theorem firstDivergence_cons_succ (a b : Message) (as bs : List Message) (d : Nat) :
    firstDivergence (a :: as) (b :: bs) (d + 1) ↔
      a = b ∧ firstDivergence as bs d := by
  constructor
  · rintro ⟨hne, hall⟩
    have h0 := hall 0 (by omega)
    simp only [List.getElem?_cons_zero, Option.some.injEq] at h0
    refine ⟨h0, by simpa using hne, fun j hj => ?_⟩
    have := hall (j + 1) (by omega)
    simpa using this
  · rintro ⟨hab, hne, hall⟩
    refine ⟨by simpa using hne, fun j hj => ?_⟩
    cases j with
    | zero => simp [hab]
    | succ j' =>
      simp only [List.getElem?_cons_succ]
      exact hall j' (by omega)

theorem findDiffFrom_zipLongest_some (A B : List Message) (d : Nat) :
    findDiffFrom 0 (zipLongest A B) = some d ↔ firstDivergence A B d := by
  induction A generalizing B d with
  | nil =>
    cases B with
    | nil =>
      simp [zipLongest, findDiffFrom, firstDivergence]
    | cons b bs =>
      rw [zipLongest_nil_cons]
      rw [findDiffFrom, if_neg (by simp)]
      cases d with
      | zero => simp [firstDivergence]
      | succ e =>
        simp only [Option.some.injEq]
        constructor
        · omega
        · rintro ⟨hne, hall⟩
          have := hall 0 (by omega)
          simp at this
  | cons a as ih =>
    cases B with
    | nil =>
      rw [zipLongest]
      rw [findDiffFrom, if_neg (by simp)]
      cases d with
      | zero => simp [firstDivergence]
      | succ e =>
        simp only [Option.some.injEq]
        constructor
        · omega
        · rintro ⟨hne, hall⟩
          have := hall 0 (by omega)
          simp at this
    | cons b bs =>
      by_cases h : a = b
      · subst h
        rw [zipLongest, findDiffFrom, if_pos rfl, findDiffFrom_shift _ 1]
        cases d with
        | zero =>
          simp only [Option.map_eq_some']
          constructor
          · rintro ⟨x, _, hx⟩
            omega
          · intro hfd
            rcases hfd with ⟨hne, -⟩
            simp at hne
        | succ e =>
          rw [firstDivergence_cons_succ]
          simp only [Option.map_eq_some', true_and]
          constructor
          · rintro ⟨x, hx, hxe⟩
            have hxe' : x = e := by omega
            rw [hxe'] at hx
            exact (ih bs e).mp hx
          · intro hfd
            exact ⟨e, (ih bs e).mpr hfd, by omega⟩
      · rw [zipLongest, findDiffFrom, if_neg (by simpa using h)]
        cases d with
        | zero => simp [firstDivergence, h]
        | succ e =>
          simp only [Option.some.injEq]
          constructor
          · omega
          · intro hfd
            rcases (firstDivergence_cons_succ a b as bs e).mp hfd with ⟨hab, -⟩
            exact absurd hab h

theorem Log.eq_iff (l1 l2 : Log) : l1 = l2 ↔ l1.messages = l2.messages := by
  cases l1
  cases l2
  simp

theorem isEmpty_ne_true_of_ne_nil {α : Type} {l : List α} (h : l ≠ []) :
    ¬l.isEmpty = true := by
  cases l with
  | nil => exact absurd rfl h
  | cons a as => simp

/-- C1: against an existing branch holding log `B`, `diff` returns `none`
exactly when the current log and `B` are fully equal by value; otherwise, at
the first index `d` where the lockstep walk (absent positions read as `none`)
disagrees, the report is one `+ `-line per remaining current-branch message
followed by one `- `-line per remaining other-branch message, joined by
newlines (one group empty when one log is a strict prefix of the other). -/
theorem diff_spec (fmt : Message → String) (m : LogManager) (branch : String)
    (B : Log) (hB : dictGet? m.branches branch = some B) :
    (m.diff fmt branch = none ↔ currentLog m = B) ∧
    (∀ d, firstDivergence (currentLog m).messages B.messages d →
      m.diff fmt branch = some (String.intercalate "\n"
        (((currentLog m).messages.drop d).map (fun msg => "+ " ++ fmt msg) ++
          (B.messages.drop d).map (fun msg => "- " ++ fmt msg)))) := by
  have hlines : ∀ d, firstDivergence (currentLog m).messages B.messages d →
      ((currentLog m).messages.drop d).map (fun msg => "+ " ++ fmt msg) ++
        (B.messages.drop d).map (fun msg => "- " ++ fmt msg) ≠ [] := by
    intro d hfd hnil
    rcases List.append_eq_nil.mp hnil with ⟨h1, h2⟩
    rw [List.map_eq_nil_iff, List.drop_eq_nil_iff] at h1 h2
    rcases hfd with ⟨hne, -⟩
    apply hne
    rw [List.getElem?_eq_none h1, List.getElem?_eq_none h2]
  have hdiff : m.diff fmt branch =
      match findDiffFrom 0 (zipLongest (currentLog m).messages B.messages) with
      | none => none
      | some d =>
        let lines := ((currentLog m).messages.drop d).map (fun msg => "+ " ++ fmt msg)
          ++ (B.messages.drop d).map (fun msg => "- " ++ fmt msg)
        if lines.isEmpty then none else some (String.intercalate "\n" lines) := by
    unfold LogManager.diff
    rw [hB]
  constructor
  · rw [hdiff]
    cases hf : findDiffFrom 0 (zipLongest (currentLog m).messages B.messages) with
    | none =>
      have heq := (findDiffFrom_zipLongest_none _ _).mp hf
      simp [Log.eq_iff, heq]
    | some d =>
      have hfd := (findDiffFrom_zipLongest_some _ _ d).mp hf
      have hne := hlines d hfd
      simp only [if_neg (isEmpty_ne_true_of_ne_nil hne)]
      constructor
      · intro hcontr
        exact absurd hcontr (by simp)
      · intro heq
        have : (currentLog m).messages = B.messages := (Log.eq_iff _ _).mp heq
        rw [← findDiffFrom_zipLongest_none (currentLog m).messages B.messages] at this
        rw [this] at hf
        cases hf
  · intro d hfd
    rw [hdiff, (findDiffFrom_zipLongest_some _ _ d).mpr hfd]
    simp only [if_neg (isEmpty_ne_true_of_ne_nil (hlines d hfd))]

/- ----------------------------------------------------------------- -/
/- `undo`.                                                           -/
/- ----------------------------------------------------------------- -/

/-- The messages printed by `undo` (via `rich.print`), as events: printing
does not change registry state, so only the fact that a given line was
reported is modelled. -/
inductive OutEvent where
  | nothingToUndo
  | undoingHeader
  | removed (msg : Message)
deriving DecidableEq, Repr

/-- Result of `undo`: normal return, or an `IndexError` escaping from
`self.log[-1]` on an empty log; in both cases the registry keeps the
mutations already performed (`state`) and the lines printed so far (`out`). -/
inductive UndoResult where
  | ok (state : LogManager) (out : List OutEvent)
  | indexError (state : LogManager) (out : List OutEvent)
deriving DecidableEq, Repr

def UndoResult.state : UndoResult → LogManager
  | .ok s _ => s
  | .indexError s _ => s

def UndoResult.errored : UndoResult → Bool
  | .ok _ _ => false
  | .indexError _ _ => true

/-- Step 1 of `undo`: `undid = self.log[-1] if self.log else None`; when that
last message's content starts with `"/undo"`, it is popped. -/
def undoAdjust (m : LogManager) : LogManager :=
  match (currentLog m).messages.getLast? with
  | some undid =>
    if strStartsWith undid.content "/undo" then setLog m (currentLog m).pop else m
  | none => m

/-- Step 2 of `undo`: back up to an `undo` branch unless the (adjusted) log
is empty or its last message is a command (content starting with `"/"`). -/
def undoBackupStep (m : LogManager) : LogManager :=
  match (currentLog m).messages.getLast? with
  | some last =>
    if strStartsWith last.content "/" then m else saveBackup m "undo"
  | none => m

/-- The `for _ in range(n)` removal loop of `undo`: each iteration reads
`self.log[-1]` (an `IndexError` when the log is empty — the emptiness check
is not re-run here), pops it, and reports the removed message unless
`quiet`. -/
def undoLoop (quiet : Bool) : Nat → LogManager → List OutEvent → UndoResult
  | 0, m, out => .ok m out
  | k + 1, m, out =>
    match (currentLog m).messages.getLast? with
    | none => .indexError m out
    | some undid =>
      undoLoop quiet k (setLog m (currentLog m).pop)
        (out ++ (if quiet then [] else [.removed undid]))

/-- `LogManager.undo(n, quiet)`: adjust for a trailing `/undo` command, back
up unless the last message is a command, report "nothing to undo" on an empty
log, else remove the last `n` messages one at a time. -/
def LogManager.undo (m : LogManager) (n : Nat) (quiet : Bool) : UndoResult :=
  match (currentLog (undoBackupStep (undoAdjust m))).messages.getLast? with
  | none => .ok (undoBackupStep (undoAdjust m)) [.nothingToUndo]
  | some _ =>
    undoLoop quiet n (undoBackupStep (undoAdjust m))
      (if quiet then [] else [.undoingHeader])

theorem currentLog_setLog (m : LogManager) (l : Log) :
    currentLog (setLog m l) = l := by
  simp [currentLog, setLog, dictGet?_dictSet_self]

theorem dictGet?_setLog_ne (m : LogManager) (l : Log) (b : String)
    (h : b ≠ m.current_branch) :
    dictGet? (setLog m l).branches b = dictGet? m.branches b :=
  dictGet?_dictSet_ne _ _ _ _ h

theorem setLog_setLog (m : LogManager) (l1 l2 : Log) :
    setLog (setLog m l1) l2 = setLog m l2 := by
  simp [setLog, dictSet_dictSet]

theorem currentLog_saveBackup (m : LogManager) (ty : String) :
    currentLog (saveBackup m ty) = currentLog m := by
  unfold currentLog
  rw [saveBackup_current]
  show (dictGet? (dictSet m.branches (backupName m ty) (currentLog m))
    m.current_branch).getD _ = _
  rw [dictGet?_dictSet_ne _ _ _ _ (current_ne_backupName m ty)]

theorem mem_of_getLastSome {α : Type} {l : List α} {a : α}
    (h : l.getLast? = some a) : a ∈ l := by
  cases l with
  | nil => simp at h
  | cons x xs =>
    have hne : x :: xs ≠ [] := by simp
    rw [List.getLast?_eq_getLast _ hne, Option.some.injEq] at h
    rw [← h]
    exact List.getLast_mem hne

theorem undoLoop_overrun (quiet : Bool) :
    ∀ (n : Nat) (m : LogManager) (out : List OutEvent),
      (currentLog m).messages.length < n →
      (undoLoop quiet n m out).errored = true ∧
      (currentLog (undoLoop quiet n m out).state).messages = [] := by
  intro n
  induction n with
  | zero => intro m out h; omega
  | succ k ih =>
    intro m out h
    cases hl : (currentLog m).messages.getLast? with
    | none =>
      have hnil : (currentLog m).messages = [] := List.getLast?_eq_none_iff.mp hl
      rw [undoLoop, hl]
      exact ⟨rfl, hnil⟩
    | some u =>
      have hne : (currentLog m).messages ≠ [] := by
        intro hc
        rw [hc] at hl
        simp at hl
      rw [undoLoop, hl]
      apply ih
      rw [currentLog_setLog]
      show (currentLog m).messages.dropLast.length < k
      rw [List.length_dropLast]
      have hpos : 0 < (currentLog m).messages.length :=
        List.length_pos_of_ne_nil hne
      omega

theorem undoLoop_ok (quiet : Bool) :
    ∀ (n : Nat) (m : LogManager) (out : List OutEvent),
      n ≤ (currentLog m).messages.length →
      (dictGet? m.branches m.current_branch).isSome →
      (undoLoop quiet n m out).errored = false ∧
      (undoLoop quiet n m out).state = setLog m
        (Log.mk ((currentLog m).messages.take
          ((currentLog m).messages.length - n))) := by
  intro n
  induction n with
  | zero =>
    intro m out _ hsome
    obtain ⟨lg, hlg⟩ := Option.isSome_iff_exists.mp hsome
    have hcl : currentLog m = lg := by simp [currentLog, hlg]
    refine ⟨rfl, ?_⟩
    show m = _
    rw [Nat.sub_zero, List.take_length, hcl]
    have hmk : Log.mk lg.messages = lg := by cases lg; rfl
    rw [hmk]
    obtain ⟨cur, d⟩ := m
    simp only [setLog]
    rw [dictSet_of_mem d cur lg hlg]
  | succ k ih =>
    intro m out hlen hsome
    cases hl : (currentLog m).messages.getLast? with
    | none =>
      exfalso
      have hnil : (currentLog m).messages = [] := List.getLast?_eq_none_iff.mp hl
      rw [hnil] at hlen
      simp at hlen
    | some u =>
      rw [undoLoop, hl]
      have hne : (currentLog m).messages ≠ [] := by
        intro hc
        rw [hc] at hl
        simp at hl
      have hpos : 0 < (currentLog m).messages.length :=
        List.length_pos_of_ne_nil hne
      have hIH := ih (setLog m (currentLog m).pop)
        (out ++ (if quiet then [] else [.removed u]))
        (by
          rw [currentLog_setLog]
          show k ≤ (currentLog m).messages.dropLast.length
          rw [List.length_dropLast]
          omega)
        (by
          show (dictGet? (dictSet m.branches m.current_branch _)
            m.current_branch).isSome
          rw [dictGet?_dictSet_self]
          rfl)
      refine ⟨hIH.1, ?_⟩
      rw [hIH.2, currentLog_setLog, setLog_setLog]
      congr 2
      show (currentLog m).messages.dropLast.take
        ((currentLog m).messages.dropLast.length - k) = _
      rw [List.dropLast_eq_take, List.length_take, List.take_take]
      congr 1
      omega

theorem undoAdjust_cases (m : LogManager) :
    undoAdjust m = m ∨ undoAdjust m = setLog m (currentLog m).pop := by
  unfold undoAdjust
  cases (currentLog m).messages.getLast? with
  | none => exact Or.inl rfl
  | some u =>
    by_cases h : strStartsWith u.content "/undo" = true
    · right
      simp [h]
    · left
      simp [h]

theorem currentLog_undoBackupStep (m : LogManager) :
    currentLog (undoBackupStep m) = currentLog m := by
  unfold undoBackupStep
  cases (currentLog m).messages.getLast? with
  | none => rfl
  | some u =>
    by_cases h : strStartsWith u.content "/" = true
    · simp [h]
    · simp [h, currentLog_saveBackup]

/-- C9 (amended): whenever, after the initial adjustment dropping a trailing
`/undo` command message, there is nothing left to remove, `undo` reports
"Nothing to undo" and returns without raising; the registry is left exactly
in the adjusted state: no backup branch is created, every other branch is
untouched, and the current branch's log is either unchanged or has lost only
that trailing `/undo` command message. -/
theorem undo_nothing (m : LogManager) (n : Nat) (quiet : Bool)
    (h : (currentLog (undoAdjust m)).messages = []) :
    m.undo n quiet = .ok (undoAdjust m) [.nothingToUndo] ∧
    (undoAdjust m).current_branch = m.current_branch ∧
    (∀ b, b ≠ m.current_branch →
      dictGet? (undoAdjust m).branches b = dictGet? m.branches b) ∧
    ((currentLog (undoAdjust m)).messages = (currentLog m).messages ∨
      (currentLog (undoAdjust m)).messages = (currentLog m).messages.dropLast) := by
  have hback : undoBackupStep (undoAdjust m) = undoAdjust m := by
    unfold undoBackupStep
    rw [h]
    rfl
  refine ⟨?_, ?_, ?_, ?_⟩
  · unfold LogManager.undo
    rw [hback, h]
    rfl
  · rcases undoAdjust_cases m with hc | hc
    · rw [hc]
    · rw [hc, setLog_current]
  · intro b hb
    rcases undoAdjust_cases m with hc | hc
    · rw [hc]
    · rw [hc]
      exact dictGet?_setLog_ne m _ b hb
  · rcases undoAdjust_cases m with hc | hc
    · rw [hc]
      exact Or.inl rfl
    · rw [hc, currentLog_setLog]
      exact Or.inr rfl

/-- C10: whenever `k ≥ 1` messages remain after `undo`'s initial adjustment
and `n > k`, `undo(n, quiet)` fails with an index error part-way through:
the `k` available messages have all been removed when the error escapes (the
current log is empty in the error state), because the emptiness check guards
only the entry of the removal loop and each iteration reads `self.log[-1]`
without re-checking. -/
theorem undo_overrun (m : LogManager) (n : Nat) (quiet : Bool)
    (h1 : 1 ≤ (currentLog (undoAdjust m)).messages.length)
    (h2 : (currentLog (undoAdjust m)).messages.length < n) :
    (m.undo n quiet).errored = true ∧
    (currentLog (m.undo n quiet).state).messages = [] := by
  have hcl : currentLog (undoBackupStep (undoAdjust m)) = currentLog (undoAdjust m) :=
    currentLog_undoBackupStep (undoAdjust m)
  cases hl : (currentLog (undoBackupStep (undoAdjust m))).messages.getLast? with
  | none =>
    exfalso
    have hnil := List.getLast?_eq_none_iff.mp hl
    rw [hcl] at hnil
    rw [hnil] at h1
    simp at h1
  | some u =>
    unfold LogManager.undo
    rw [hl]
    exact undoLoop_overrun quiet n _ _ (by rw [hcl]; exact h2)

/-- C2 (amended): for `n ≥ 1` (indeed any `n`), on a state whose current
branch holds `L` with at least `n + 1` messages, none of which is a command,
and where no branch already bears the computed backup name
`{branch}-undo-{count}`, `undo(n, quiet)` returns normally, adds exactly one
branch — the backup branch holding the pre-undo content `L` — removes
exactly the last `n` messages of the current branch, and changes nothing
else. -/
theorem undo_spec (m : LogManager) (L : Log) (n : Nat) (quiet : Bool)
    (hcur : dictGet? m.branches m.current_branch = some L)
    (hlen : n + 1 ≤ L.messages.length)
    (hnocmd : ∀ msg ∈ L.messages, strStartsWith msg.content "/" = false)
    (hfresh : dictGet? m.branches (backupName m "undo") = none) :
    (m.undo n quiet).errored = false ∧
    (m.undo n quiet).state.branches.length = m.branches.length + 1 ∧
    dictGet? (m.undo n quiet).state.branches (backupName m "undo") = some L ∧
    dictGet? (m.undo n quiet).state.branches m.current_branch =
      some (Log.mk (L.messages.take (L.messages.length - n))) ∧
    (∀ b, b ≠ m.current_branch → b ≠ backupName m "undo" →
      dictGet? (m.undo n quiet).state.branches b = dictGet? m.branches b) ∧
    (m.undo n quiet).state.current_branch = m.current_branch := by
  have hL : currentLog m = L := by simp [currentLog, hcur]
  have hnil : L.messages ≠ [] := by
    intro hc
    rw [hc] at hlen
    simp at hlen
  obtain ⟨u, hu⟩ : ∃ u, L.messages.getLast? = some u := by
    cases hgl : L.messages.getLast? with
    | none => exact absurd (List.getLast?_eq_none_iff.mp hgl) hnil
    | some u => exact ⟨u, rfl⟩
  have humem : u ∈ L.messages := mem_of_getLastSome hu
  have hcmd : strStartsWith u.content "/" = false := hnocmd u humem
  have hundo : strStartsWith u.content "/undo" = false := by
    cases hq : strStartsWith u.content "/undo" with
    | false => rfl
    | true =>
      have := startsWith_undo_slash hq
      rw [hcmd] at this
      cases this
  have hadj : undoAdjust m = m := by
    unfold undoAdjust
    rw [hL, hu]
    simp [hundo]
  have hbk : undoBackupStep m = saveBackup m "undo" := by
    unfold undoBackupStep
    rw [hL, hu]
    simp [hcmd]
  have hbr2 : (saveBackup m "undo").branches =
      m.branches ++ [(backupName m "undo", L)] := by
    show dictSet m.branches (backupName m "undo") (currentLog m) = _
    rw [hL, dictSet_of_fresh _ _ _ hfresh]
  have hcur2 : (saveBackup m "undo").current_branch = m.current_branch :=
    saveBackup_current m "undo"
  have hcl2 : currentLog (saveBackup m "undo") = L := by
    rw [currentLog_saveBackup, hL]
  have hsome2 : (dictGet? (saveBackup m "undo").branches
      (saveBackup m "undo").current_branch).isSome := by
    rw [hbr2, hcur2, dictGet?_append_ne _ _ _ _ (current_ne_backupName m "undo"),
      hcur]
    rfl
  have hloop := undoLoop_ok quiet n (saveBackup m "undo")
    (if quiet then [] else [.undoingHeader]) (by rw [hcl2]; omega) hsome2
  have hundoeq : m.undo n quiet = undoLoop quiet n (saveBackup m "undo")
      (if quiet then [] else [.undoingHeader]) := by
    unfold LogManager.undo
    rw [hadj, hbk, hcl2, hu]
  have hstate : (m.undo n quiet).state = setLog (saveBackup m "undo")
      (Log.mk (L.messages.take (L.messages.length - n))) := by
    rw [hundoeq, hloop.2, hcl2]
  refine ⟨by rw [hundoeq]; exact hloop.1, ?_, ?_, ?_, ?_, ?_⟩
  · rw [hstate]
    show (dictSet (saveBackup m "undo").branches
      (saveBackup m "undo").current_branch _).length = _
    rw [length_dictSet_of_mem _ _ _ hsome2, hbr2, List.length_append]
    rfl
  · rw [hstate]
    show dictGet? (dictSet (saveBackup m "undo").branches
      (saveBackup m "undo").current_branch _) (backupName m "undo") = some L
    rw [hcur2, dictGet?_dictSet_ne _ _ _ _ (Ne.symm (current_ne_backupName m "undo")),
      hbr2, dictGet?_append_self _ _ _ hfresh]
  · rw [hstate]
    show dictGet? (dictSet (saveBackup m "undo").branches
      (saveBackup m "undo").current_branch _) m.current_branch = _
    rw [← hcur2, dictGet?_dictSet_self]
  · intro b hb1 hb2
    rw [hstate]
    show dictGet? (dictSet (saveBackup m "undo").branches
      (saveBackup m "undo").current_branch _) b = _
    rw [hcur2, dictGet?_dictSet_ne _ _ _ _ hb1, hbr2,
      dictGet?_append_ne _ _ _ _ hb2]
  · rw [hstate, setLog_current, hcur2]

def msgA : Message := ⟨"user", "a", 0, [], false⟩

def msgB : Message := ⟨"assistant", "b", 1, [], false⟩

def msgC : Message := ⟨"user", "c", 2, [], false⟩

def msgX : Message := ⟨"user", "x", 3, [], false⟩

def msgY : Message := ⟨"assistant", "y", 4, [], false⟩

def msgUndoCmd : Message := ⟨"user", "/undo", 5, [], false⟩

def mgr0 : LogManager := ⟨"main", [("main", Log.mk [])]⟩

def mgrDiff : LogManager :=
  ⟨"main", [("main", Log.mk [msgA, msgB, msgC]), ("alt", Log.mk [msgA, msgB])]⟩

/-- C1 witness: branch `"main" = [A,B,C]` versus branch `"alt" = [A,B]`
diverges at index 2 and reports a single `+ `-line and no `- `-lines. -/
theorem diff_spec_witness :
    dictGet? mgrDiff.branches "alt" = some (Log.mk [msgA, msgB]) ∧
    firstDivergence (currentLog mgrDiff).messages [msgA, msgB] 2 ∧
    mgrDiff.diff (fun msg => msg.content) "alt" =
      some (String.intercalate "\n"
        (((currentLog mgrDiff).messages.drop 2).map (fun msg => "+ " ++ msg.content) ++
          (([msgA, msgB] : List Message).drop 2).map (fun msg => "- " ++ msg.content))) ∧
    mgrDiff.diff (fun msg => msg.content) "alt" = some "+ c" :=
  ⟨by decide, by decide,
    (diff_spec (fun msg => msg.content) mgrDiff "alt" (Log.mk [msgA, msgB])
      (by decide)).2 2 (by decide),
    by decide⟩

def mgrA : LogManager := ⟨"main", [("main", Log.mk [msgA])]⟩

/-- C4 witness: `edit([X,Y])` on a current log `[A]` on branch `"main"` backs
up `[A]` and installs `[X,Y]`. -/
theorem edit_spec_witness :
    dictGet? mgrA.branches mgrA.current_branch = some (Log.mk [msgA]) ∧
    (dictGet? (mgrA.edit (Log.mk [msgX, msgY])).branches (backupName mgrA "edit") =
        some (Log.mk [msgA]) ∧
      dictGet? (mgrA.edit (Log.mk [msgX, msgY])).branches mgrA.current_branch =
        some (Log.mk [msgX, msgY]) ∧
      (mgrA.edit (Log.mk [msgX, msgY])).current_branch = mgrA.current_branch) :=
  ⟨by decide, edit_spec mgrA (Log.mk [msgA]) (Log.mk [msgX, msgY]) (by decide)⟩

/-- C3 witness: the two-edit scenario run from `branches = {main: []}`. -/
theorem backup_naming_witness :
    dictGet? mgr0.branches "main" = some (Log.mk []) ∧
    countPre mgr0.branches "main-edit-" = 0 ∧
    (dictGet? (saveBackup mgr0 "undo").branches (backupName mgr0 "undo") =
        some (currentLog mgr0) ∧
      backupName mgr0 "edit" = "main-edit-0" ∧
      dictGet? (mgr0.edit (Log.mk [msgA])).branches "main-edit-0" = some (Log.mk []) ∧
      countPre (mgr0.edit (Log.mk [msgA])).branches "main-edit-" = 1 ∧
      backupName (mgr0.edit (Log.mk [msgA])) "edit" = "main-edit-1" ∧
      dictGet? ((mgr0.edit (Log.mk [msgA])).edit (Log.mk [msgB])).branches
          "main-edit-1" = some (Log.mk [msgA]) ∧
      dictGet? ((mgr0.edit (Log.mk [msgA])).edit (Log.mk [msgB])).branches
          "main-edit-0" = some (Log.mk [])) :=
  ⟨by decide, by decide,
    backup_naming mgr0 "undo" mgr0.branches (Log.mk []) (Log.mk [msgA])
      (Log.mk [msgB]) (by decide) (by decide)⟩

def mgrU : LogManager := ⟨"main", [("main", Log.mk [msgUndoCmd])]⟩

/-- C9 counterexample: on the log `["/undo …"]`, `undo(1)` does report
"Nothing to undo" and returns normally — but the registry state is *not*
unchanged: the trailing `/undo` command message has been dropped from the
current branch, so the claim's "leaving the registry's state unchanged" fails
at this input. -/
theorem undo_nothing_counterexample :
    LogManager.undo mgrU 1 false =
      .ok ⟨"main", [("main", Log.mk [])]⟩ [.nothingToUndo] ∧
    (LogManager.undo mgrU 1 false).state ≠ mgrU := by decide

/-- C9 witness: the amended statement at the same input. -/
theorem undo_nothing_witness :
    (currentLog (undoAdjust mgrU)).messages = [] ∧
    (LogManager.undo mgrU 1 false = .ok (undoAdjust mgrU) [.nothingToUndo] ∧
      (undoAdjust mgrU).current_branch = mgrU.current_branch ∧
      (∀ b, b ≠ mgrU.current_branch →
        dictGet? (undoAdjust mgrU).branches b = dictGet? mgrU.branches b) ∧
      ((currentLog (undoAdjust mgrU)).messages = (currentLog mgrU).messages ∨
        (currentLog (undoAdjust mgrU)).messages =
          (currentLog mgrU).messages.dropLast)) :=
  ⟨by decide, undo_nothing mgrU 1 false (by decide)⟩

/-- C10 witness: one message left, `undo(2)` errors with the log emptied. -/
theorem undo_overrun_witness :
    1 ≤ (currentLog (undoAdjust mgrA)).messages.length ∧
    (currentLog (undoAdjust mgrA)).messages.length < 2 ∧
    ((mgrA.undo 2 false).errored = true ∧
      (currentLog (mgrA.undo 2 false).state).messages = []) :=
  ⟨by decide, by decide, undo_overrun mgrA 2 false (by decide) (by decide)⟩

def mgrClash : LogManager :=
  ⟨"main", [("main", Log.mk [msgA, msgB]), ("main-undo-1", Log.mk [])]⟩

/-- C2 counterexample: the current log `[A, B]` has `n + 1 = 2` messages and
no commands, yet `undo(1)` creates no new backup branch: a branch named
`main-undo-1` already exists, the computed backup name collides with it
(`count = 1`), and the existing branch is silently overwritten — the branch
count stays 2 instead of growing to 3. -/
theorem undo_spec_counterexample :
    LogManager.undo mgrClash 1 true =
      .ok ⟨"main", [("main", Log.mk [msgA]),
        ("main-undo-1", Log.mk [msgA, msgB])]⟩ [] ∧
    mgrClash.branches.length = 2 ∧
    (LogManager.undo mgrClash 1 true).state.branches.length = 2 := by decide

def mgrABC : LogManager := ⟨"main", [("main", Log.mk [msgA, msgB, msgC])]⟩

/-- C2 witness: log `[A,B,C]`, `undo(1)` → one new backup branch
(`main-undo-0`) holding `[A,B,C]`, current log `[A,B]`. -/
theorem undo_spec_witness :
    dictGet? mgrABC.branches mgrABC.current_branch =
      some (Log.mk [msgA, msgB, msgC]) ∧
    1 + 1 ≤ (Log.mk [msgA, msgB, msgC]).messages.length ∧
    (∀ msg ∈ (Log.mk [msgA, msgB, msgC]).messages,
      strStartsWith msg.content "/" = false) ∧
    dictGet? mgrABC.branches (backupName mgrABC "undo") = none ∧
    backupName mgrABC "undo" = "main-undo-0" ∧
    ((mgrABC.undo 1 false).errored = false ∧
      (mgrABC.undo 1 false).state.branches.length = mgrABC.branches.length + 1 ∧
      dictGet? (mgrABC.undo 1 false).state.branches (backupName mgrABC "undo") =
        some (Log.mk [msgA, msgB, msgC]) ∧
      dictGet? (mgrABC.undo 1 false).state.branches mgrABC.current_branch =
        some (Log.mk ((Log.mk [msgA, msgB, msgC]).messages.take
          ((Log.mk [msgA, msgB, msgC]).messages.length - 1))) ∧
      (∀ b, b ≠ mgrABC.current_branch → b ≠ backupName mgrABC "undo" →
        dictGet? (mgrABC.undo 1 false).state.branches b =
          dictGet? mgrABC.branches b) ∧
      (mgrABC.undo 1 false).state.current_branch = mgrABC.current_branch) :=
  ⟨by decide, by decide, by decide, by decide, by decide,
    undo_spec mgrABC (Log.mk [msgA, msgB, msgC]) 1 false (by decide) (by decide)
      (by decide) (by decide)⟩

/- ----------------------------------------------------------------- -/
/- The storage directory: `write` and `load`.                        -/
/- ----------------------------------------------------------------- -/

/-- The storage directory of one conversation: the content of the main log
file `conversation.jsonl` (`none` when absent) and the `branches/*.jsonl`
files keyed by their stem. -/
structure FS where
  mainFile : Option (List Message)
  branchFiles : List (String × List Message)
deriving DecidableEq, Repr

/-- The `for branch, log in self._branches.items()` loop of `write`: every
branch except `"main"` is written to `branches/{branch}.jsonl`. -/
def writeBranches : List (String × Log) → FS → FS
  | [], fs => fs
  | (b, lg) :: rest, fs =>
    writeBranches rest
      (if b = "main" then fs
       else { fs with branchFiles := dictSet fs.branchFiles b lg.messages })

/-- `LogManager.write(branches=...)`: write the current branch's log to its
canonical file (`conversation.jsonl` when the current branch is `"main"`,
else `branches/{name}.jsonl`), then, when `branches` is set, write every
branch except `"main"` under `branches/` (the source's `FIXME`: `main` is
never persisted here when the current branch differs from it). -/
def LogManager.writeFS (m : LogManager) (branches : Bool) (fs : FS) : FS :=
  let fs1 := if m.current_branch = "main"
    then { fs with mainFile := some (currentLog m).messages }
    else { fs with branchFiles := dictSet fs.branchFiles m.current_branch (currentLog m).messages }
  if branches then writeBranches m.branches fs1 else fs1

theorem writeBranches_mainFile (l : List (String × Log)) (fs : FS) :
    (writeBranches l fs).mainFile = fs.mainFile := by
  induction l generalizing fs with
  | nil => rfl
  | cons p rest ih =>
    obtain ⟨b, lg⟩ := p
    by_cases hb : b = "main" <;> simp [writeBranches, hb, ih]

theorem writeBranches_not_mem (l : List (String × Log)) (fs : FS) (b : String)
    (h : b ∉ l.map Prod.fst) :
    dictGet? (writeBranches l fs).branchFiles b = dictGet? fs.branchFiles b := by
  induction l generalizing fs with
  | nil => rfl
  | cons p rest ih =>
    obtain ⟨b0, lg0⟩ := p
    simp only [List.map_cons, List.mem_cons] at h
    push_neg at h
    by_cases hb : b0 = "main"
    · simp only [writeBranches, hb, if_pos rfl]
      exact ih fs h.2
    · simp only [writeBranches, if_neg hb]
      rw [ih _ h.2]
      exact dictGet?_dictSet_ne _ _ _ _ h.1

theorem writeBranches_mem (l : List (String × Log)) (fs : FS) (b : String) (lg : Log)
    (hnd : (l.map Prod.fst).Nodup) (hmem : (b, lg) ∈ l) (hb : b ≠ "main") :
    dictGet? (writeBranches l fs).branchFiles b = some lg.messages := by
  induction l generalizing fs with
  | nil => simp at hmem
  | cons p rest ih =>
    obtain ⟨b0, lg0⟩ := p
    simp only [List.map_cons, List.nodup_cons] at hnd
    rcases List.mem_cons.mp hmem with heq | hrest
    · injection heq with h1 h2
      subst h1
      subst h2
      simp only [writeBranches, if_neg hb]
      rw [writeBranches_not_mem rest _ b hnd.1, dictGet?_dictSet_self]
    · have hb0 : b ∈ rest.map Prod.fst :=
        List.mem_map.mpr ⟨(b, lg), hrest, rfl⟩
      by_cases h0 : b0 = "main"
      · simp only [writeBranches, h0, if_pos rfl]
        exact ih _ hnd.2 hrest
      · simp only [writeBranches, if_neg h0]
        exact ih _ hnd.2 hrest

/-- C6: with the current branch different from `"main"`,
`write(branches=true)` leaves the main log file untouched, persists every
non-`"main"` branch (in particular the current branch, whose canonical file
is its own `branches/{name}.jsonl` file) to its file under `branches/`. -/
theorem write_not_main (m : LogManager) (fs : FS)
    (hne : m.current_branch ≠ "main")
    (hnd : (m.branches.map Prod.fst).Nodup) :
    (m.writeFS true fs).mainFile = fs.mainFile ∧
    (∀ b lg, b ≠ "main" → (b, lg) ∈ m.branches →
      dictGet? (m.writeFS true fs).branchFiles b = some lg.messages) ∧
    (∀ L, dictGet? m.branches m.current_branch = some L →
      dictGet? (m.writeFS true fs).branchFiles m.current_branch =
        some L.messages) := by
  have hw : m.writeFS true fs = writeBranches m.branches
      { fs with branchFiles := dictSet fs.branchFiles m.current_branch (currentLog m).messages } := by
    unfold LogManager.writeFS
    rw [if_neg hne]
    rfl
  refine ⟨?_, ?_, ?_⟩
  · rw [hw, writeBranches_mainFile]
  · intro b lg hb hmem
    rw [hw]
    exact writeBranches_mem _ _ _ _ hnd hmem hb
  · intro L hL
    rw [hw]
    exact writeBranches_mem _ _ _ _ hnd (dictGet?_some_mem _ _ _ hL) hne

/-- C6 witness: current branch `"dev"`, a `main` branch on file and in
memory; `write(branches=true)` leaves `conversation.jsonl` as it was and
writes `dev` under `branches/`. -/
theorem write_not_main_witness :
    ("dev" : String) ≠ "main" ∧
    ((([("main", Log.mk [msgA]), ("dev", Log.mk [msgA, msgB])] :
        List (String × Log)).map Prod.fst).Nodup) ∧
    ((LogManager.writeFS ⟨"dev", [("main", Log.mk [msgA]),
        ("dev", Log.mk [msgA, msgB])]⟩ true ⟨some [msgC], []⟩).mainFile =
        (⟨some [msgC], []⟩ : FS).mainFile ∧
      (∀ b lg, b ≠ "main" →
        (b, lg) ∈ ([("main", Log.mk [msgA]), ("dev", Log.mk [msgA, msgB])] :
          List (String × Log)) →
        dictGet? (LogManager.writeFS ⟨"dev", [("main", Log.mk [msgA]),
          ("dev", Log.mk [msgA, msgB])]⟩ true ⟨some [msgC], []⟩).branchFiles b =
          some lg.messages) ∧
      (∀ L, dictGet? ([("main", Log.mk [msgA]), ("dev", Log.mk [msgA, msgB])] :
          List (String × Log)) "dev" = some L →
        dictGet? (LogManager.writeFS ⟨"dev", [("main", Log.mk [msgA]),
          ("dev", Log.mk [msgA, msgB])]⟩ true ⟨some [msgC], []⟩).branchFiles "dev" =
          some L.messages)) :=
  ⟨by decide, by decide,
    write_not_main ⟨"dev", [("main", Log.mk [msgA]), ("dev", Log.mk [msgA, msgB])]⟩
      ⟨some [msgC], []⟩ (by decide) (by decide)⟩

/-- The `for file in self.logdir.glob("branches/*.jsonl")` loop of
`__init__`: a branch file whose file name equals the directory's own name is
skipped, an already-present branch is not overridden, any other file is
loaded as a branch keyed by its stem. -/
def loadBranchFiles : List (String × List Message) → String → List (String × Log) →
    List (String × Log)
  | [], _, bs => bs
  | (name, content) :: rest, chatId, bs =>
    loadBranchFiles rest chatId
      (if name ++ ".jsonl" = chatId then bs
       else if (dictGet? bs name).isSome then bs
       else dictSet bs name (Log.mk content))

/-- `LogManager.__init__(log, logdir, branch)` (after the lock step, which
does not touch the branch map): seed `{branch: Log(log or [])}`; then — the
`if self.logdir / "conversation.jsonl":` test is a `Path` object and hence
always truthy — when `"main"` is not yet a branch, read
`conversation.jsonl` (a missing file raises `FileNotFoundError` inside
`Log.read_jsonl`); finally scan the `branches/` files. -/
def initLM (fs : FS) (chatId : String) (log : List Message) (branch : String) :
    Except String LogManager :=
  let branches0 : List (String × Log) := [(branch, Log.mk log)]
  if (dictGet? branches0 "main").isSome then
    .ok ⟨branch, loadBranchFiles fs.branchFiles chatId branches0⟩
  else
    match fs.mainFile with
    | none => .error "FileNotFoundError: conversation.jsonl"
    | some mainMsgs =>
      .ok ⟨branch, loadBranchFiles fs.branchFiles chatId
        (dictSet branches0 "main" (Log.mk mainMsgs))⟩

/-- `LogManager.load(logdir, initial_msgs, branch, create)`: resolve the
target branch's backing file; when it is absent, create it as an empty log
file if `create` is set, else fail with `FileNotFoundError`; read it, fall
back to `initial_msgs` (then `[]`) when the read log is empty
(`log.messages or initial_msgs or []`), and construct the registry. -/
def LogManager.load (fs : FS) (chatId : String) (initial : List Message)
    (branch : String) (create : Bool) : Except String (LogManager × FS) :=
  let existing : Option (List Message) :=
    if branch = "main" then fs.mainFile else dictGet? fs.branchFiles branch
  if existing.isSome || create then
    let fs' := if existing.isSome then fs
      else if branch = "main" then { fs with mainFile := some [] }
      else { fs with branchFiles := dictSet fs.branchFiles branch [] }
    let content := (if branch = "main" then fs'.mainFile
      else dictGet? fs'.branchFiles branch).getD []
    let msgs := if content.isEmpty then initial else content
    match initLM fs' chatId msgs branch with
    | .ok m => .ok (m, fs')
    | .error e => .error e
  else .error "FileNotFoundError"

theorem loadBranchFiles_mem (files : List (String × List Message)) (cid : String)
    (bs : List (String × Log)) (b : String) (h : (dictGet? bs b).isSome) :
    dictGet? (loadBranchFiles files cid bs) b = dictGet? bs b := by
  induction files generalizing bs with
  | nil => rfl
  | cons p rest ih =>
    obtain ⟨name, content⟩ := p
    rw [loadBranchFiles]
    by_cases h1 : name ++ ".jsonl" = cid
    · rw [if_pos h1]
      exact ih bs h
    · rw [if_neg h1]
      by_cases h2 : (dictGet? bs name).isSome
      · rw [if_pos h2]
        exact ih bs h
      · rw [if_neg h2]
        have hnb : b ≠ name := by
          intro hc
          rw [hc] at h
          exact h2 h
        rw [ih _ (by rw [dictGet?_dictSet_ne _ _ _ _ hnb]; exact h),
          dictGet?_dictSet_ne _ _ _ _ hnb]

/- ----------------------------------------------------------------- -/
/- C5: `main` after loading from storage.                            -/
/- ----------------------------------------------------------------- -/

/-- C5 (amended): whenever loading from a storage directory succeeds, the
branch `"main"` is present in the resulting branch map; when no main log
file exists in the directory, success is only possible for target branch
`"main"` with creation requested, and `main` is then seeded from the
provided initial messages (empty only when none are given). -/
theorem load_main_present (fs : FS) (chatId : String) (initial : List Message)
    (branch : String) (create : Bool) (m : LogManager) (fs2 : FS)
    (h : LogManager.load fs chatId initial branch create = .ok (m, fs2)) :
    (dictGet? m.branches "main").isSome ∧
    (fs.mainFile = none →
      dictGet? m.branches "main" = some (Log.mk initial) ∧
      branch = "main" ∧ create = true) := by
  have hmem0 : ∀ (msgs : List Message),
      (dictGet? ([("main", Log.mk msgs)] : List (String × Log)) "main").isSome := by
    intro msgs
    simp [dictGet?]
  by_cases hb : branch = "main"
  · subst hb
    cases hmf : fs.mainFile with
    | some c =>
      have hload : LogManager.load fs chatId initial "main" create =
          .ok (⟨"main", loadBranchFiles fs.branchFiles chatId
            [("main", Log.mk (if c.isEmpty then initial else c))]⟩, fs) := by
        simp [LogManager.load, initLM, hmf, dictGet?]
      rw [hload] at h
      injection h with h'
      injection h' with h1 h2
      refine ⟨?_, fun hc => by simp at hc⟩
      rw [← h1]
      show (dictGet? (loadBranchFiles _ _ _) "main").isSome
      rw [loadBranchFiles_mem _ _ _ _ (hmem0 _)]
      exact hmem0 _
    | none =>
      cases hcr : create with
      | false =>
        rw [hcr] at h
        have : LogManager.load fs chatId initial "main" false =
            .error "FileNotFoundError" := by
          simp [LogManager.load, hmf]
        rw [this] at h
        cases h
      | true =>
        rw [hcr] at h
        have hload : LogManager.load fs chatId initial "main" true =
            .ok (⟨"main", loadBranchFiles fs.branchFiles chatId
              [("main", Log.mk initial)]⟩,
              { fs with mainFile := some [] }) := by
          simp [LogManager.load, initLM, hmf, dictGet?]
        rw [hload] at h
        injection h with h'
        injection h' with h1 h2
        have hmain : dictGet? m.branches "main" = some (Log.mk initial) := by
          rw [← h1]
          show dictGet? (loadBranchFiles _ _ _) "main" = _
          rw [loadBranchFiles_mem _ _ _ _ (hmem0 _)]
          simp [dictGet?]
        exact ⟨by rw [hmain]; rfl, fun _ => ⟨hmain, rfl, rfl⟩⟩
  · cases hmf : fs.mainFile with
    | none =>
      exfalso
      have hinit : ∀ (fsx : FS), fsx.mainFile = none → ∀ msgs,
          initLM fsx chatId msgs branch =
            .error "FileNotFoundError: conversation.jsonl" := by
        intro fsx hfsx msgs
        simp [initLM, dictGet?, hb, hfsx]
      revert h
      unfold LogManager.load
      simp only [if_neg hb]
      by_cases hs : (dictGet? fs.branchFiles branch).isSome
      · simp only [hs, Bool.true_or, if_true, if_pos]
        rw [hinit fs hmf]
        intro h
        cases h
      · cases hcr : create with
        | false =>
          simp [hs, hcr]
        | true =>
          simp only [hs, hcr, Bool.or_true, if_true, Bool.false_eq_true,
            if_false, if_neg hb]
          rw [hinit { fs with branchFiles := dictSet fs.branchFiles branch [] }
            (by simpa using hmf)]
          intro h
          cases h
    | some mainMsgs =>
      refine ⟨?_, fun hc => by simp [hmf] at hc⟩
      have hinit : ∀ (fsx : FS), fsx.mainFile = some mainMsgs → ∀ msgs,
          initLM fsx chatId msgs branch =
            .ok ⟨branch, loadBranchFiles fsx.branchFiles chatId
              (dictSet [(branch, Log.mk msgs)] "main" (Log.mk mainMsgs))⟩ := by
        intro fsx hfsx msgs
        simp [initLM, dictGet?, hb, hfsx]
      have hmem1 : ∀ (msgs : List Message),
          (dictGet? (dictSet ([(branch, Log.mk msgs)] : List (String × Log))
            "main" (Log.mk mainMsgs)) "main").isSome := by
        intro msgs
        rw [dictGet?_dictSet_self]
        rfl
      revert h
      unfold LogManager.load
      simp only [if_neg hb]
      by_cases hs : (dictGet? fs.branchFiles branch).isSome
      · simp only [hs, Bool.true_or, if_true, if_pos]
        rw [hinit fs hmf]
        intro h
        injection h with h'
        injection h' with h1 h2
        rw [← h1]
        show (dictGet? (loadBranchFiles _ _ _) "main").isSome
        rw [loadBranchFiles_mem _ _ _ _ (hmem1 _)]
        exact hmem1 _
      · cases hcr : create with
        | false =>
          simp [hs, hcr]
        | true =>
          simp only [hs, hcr, Bool.or_true, if_true, Bool.false_eq_true,
            if_false, if_neg hb]
          rw [hinit { fs with branchFiles := dictSet fs.branchFiles branch [] }
            (by simpa using hmf)]
          intro h
          injection h with h'
          injection h' with h1 h2
          rw [← h1]
          show (dictGet? (loadBranchFiles _ _ _) "main").isSome
          rw [loadBranchFiles_mem _ _ _ _ (hmem1 _)]
          exact hmem1 _

/-- C5 counterexample: loading an empty storage directory with initial
messages `[A]`, target branch `"main"` and creation requested succeeds, and
`main` is seeded with `[A]` — not "created as an empty log" as the claim
states for the no-main-file case. -/
theorem load_main_present_counterexample :
    LogManager.load ⟨none, []⟩ "conv" [msgA] "main" true =
      .ok (⟨"main", [("main", Log.mk [msgA])]⟩, ⟨some [], []⟩) ∧
    Log.mk [msgA] ≠ Log.mk [] := ⟨rfl, by decide⟩

/-- C5 witness: the amended statement at the same no-main-file input. -/
theorem load_main_present_witness :
    LogManager.load ⟨none, []⟩ "conv" [msgA] "main" true =
      .ok (⟨"main", [("main", Log.mk [msgA])]⟩, ⟨some [], []⟩) ∧
    ((dictGet? ([("main", Log.mk [msgA])] : List (String × Log)) "main").isSome ∧
      ((⟨none, []⟩ : FS).mainFile = none →
        dictGet? ([("main", Log.mk [msgA])] : List (String × Log)) "main" =
          some (Log.mk [msgA]) ∧
        ("main" : String) = "main" ∧ (true : Bool) = true)) :=
  ⟨rfl,
    load_main_present ⟨none, []⟩ "conv" [msgA] "main" true
      ⟨"main", [("main", Log.mk [msgA])]⟩ ⟨some [], []⟩ rfl⟩

/- ----------------------------------------------------------------- -/
/- C7: the JSONL codec.                                              -/
/- ----------------------------------------------------------------- -/

/-- Decimal digit to its character (`'0'` is code point 48). -/
def decChar (d : Nat) : Char := Char.ofNat (48 + d)

/-- Character back to its decimal digit. -/
def decVal (c : Char) : Option Nat :=
  if 48 ≤ c.toNat && c.toNat ≤ 57 then some (c.toNat - 48) else none

/-- Modelled from the spec: the `datetime.isoformat` serialisation used by
`Message.to_dict` (external `message.py` / stdlib), abstracted as the
decimal rendering of the embedded time point — an injective string encoding
with an exact parse, as §4.2 requires of the timestamp field. -/
def isoOfNat (t : Nat) : String :=
  String.mk ((Nat.digits 10 t).reverse.map decChar)

def parseDigits : List Char → Option (List Nat)
  | [] => some []
  | c :: cs =>
    match decVal c, parseDigits cs with
    | some d, some ds => some (d :: ds)
    | _, _ => none

/-- Modelled from the spec: `datetime.fromisoformat`, the inverse parse of
`isoOfNat`; a malformed string yields `none` (a fatal decode error). -/
def natOfIso (s : String) : Option Nat :=
  (parseDigits s.data).map (fun ds => Nat.ofDigits 10 ds.reverse)

/-- One line of a `.jsonl` file: the JSON object written by
`json.dumps(msg.to_dict())`, with `role`, `content`, the `timestamp` as an
ISO string, `files` as path strings, and the remaining message fields (here
`quiet`) carried through verbatim.  The JSON text layer round-trips this
record unchanged and is elided. -/
structure MsgRecord where
  role : String
  content : String
  timestamp : String
  files : List String
  quiet : Bool
deriving DecidableEq, Repr

/-- Modelled from the spec: `Message.to_dict` (external `message.py`), per
§4.2 of the spec. -/
def Message.toDict (m : Message) : MsgRecord :=
  ⟨m.role, m.content, isoOfNat m.timestamp, m.files, m.quiet⟩

/-- `Log.write_jsonl`: one `json.dumps(msg.to_dict())` record per message,
in order, no reordering. -/
def Log.writeJsonl (l : Log) : List MsgRecord :=
  l.messages.map Message.toDict

/-- One step of `_gen_read_jsonl`: pop `files` (paths from strings), parse
`timestamp` with `fromisoformat`, rebuild the `Message`; a parse failure is
fatal. -/
def readRecord (r : MsgRecord) : Option Message :=
  match natOfIso r.timestamp with
  | some t => some ⟨r.role, r.content, t, r.files, r.quiet⟩
  | none => none

/-- The decoding generator of `_gen_read_jsonl`: records in file order, a
failure anywhere fails the whole read. -/
def readMsgs : List MsgRecord → Option (List Message)
  | [] => some []
  | r :: rest =>
    match readRecord r, readMsgs rest with
    | some msg, some msgs => some (msg :: msgs)
    | _, _ => none

/-- `Log.read_jsonl` without a `limit`: decode every record in file order;
any record failure fails the whole read (no partial recovery). -/
def readJsonl (rs : List MsgRecord) : Option Log :=
  match readMsgs rs with
  | some msgs => some (Log.mk msgs)
  | none => none

theorem toNat_decChar (d : Nat) (h : d < 10) : (decChar d).toNat = 48 + d := by
  have hv : (48 + d).isValidChar := Or.inl (by omega)
  unfold decChar Char.ofNat
  rw [dif_pos hv]
  rfl

theorem decVal_decChar (d : Nat) (h : d < 10) : decVal (decChar d) = some d := by
  unfold decVal
  rw [toNat_decChar d h,
    if_pos (by simp only [Bool.and_eq_true, decide_eq_true_eq]; omega)]
  congr 1
  omega

theorem parseDigits_map (l : List Nat) (h : ∀ d ∈ l, d < 10) :
    parseDigits (l.map decChar) = some l := by
  induction l with
  | nil => rfl
  | cons d ds ih =>
    rw [List.map_cons, parseDigits, decVal_decChar d (h d (by simp)),
      ih (fun x hx => h x (by simp [hx]))]

theorem natOfIso_isoOfNat (t : Nat) : natOfIso (isoOfNat t) = some t := by
  unfold natOfIso isoOfNat
  have hd : ∀ d ∈ (Nat.digits 10 t).reverse, d < 10 := by
    intro d hdm
    exact Nat.digits_lt_base (by omega) (List.mem_reverse.mp hdm)
  show (parseDigits ((Nat.digits 10 t).reverse.map decChar)).map _ = some t
  rw [parseDigits_map _ hd]
  simp [Nat.ofDigits_digits]

theorem readRecord_toDict (m : Message) : readRecord (Message.toDict m) = some m := by
  unfold readRecord Message.toDict
  rw [show (⟨m.role, m.content, isoOfNat m.timestamp, m.files, m.quiet⟩ :
    MsgRecord).timestamp = isoOfNat m.timestamp from rfl, natOfIso_isoOfNat]

/-- C7: writing any log with `write_jsonl` and reading the result back with
`read_jsonl` yields exactly the same message sequence — same role, content,
timestamp and files for each message, in the same order (no reordering, no
loss). -/
theorem readJsonl_writeJsonl (L : Log) : readJsonl (Log.writeJsonl L) = some L := by
  have hmsgs : ∀ msgs : List Message,
      readMsgs (msgs.map Message.toDict) = some msgs := by
    intro msgs
    induction msgs with
    | nil => rfl
    | cons msg rest ih =>
      rw [List.map_cons, readMsgs, readRecord_toDict, ih]
  unfold readJsonl Log.writeJsonl
  rw [hmsgs]

/- ----------------------------------------------------------------- -/
/- C8: append followed by pop is the identity.                       -/
/- ----------------------------------------------------------------- -/

/-- C8: for every log `L` and message `m`, `L.append(m).pop()` equals `L`:
appending a message and removing the last message are mutually inverse when no
other mutation intervenes. -/
theorem append_pop_id (L : Log) (m : Message) : (L.append m).pop = L := by
  cases L with
  | mk msgs => simp [Log.append, Log.pop, List.dropLast_concat]

end Gptme
